import Mathlib

/-!
Verification of the project-documentation generator (`src/main.py`).

The script scans a directory tree, filters files by wildcard exclusion
patterns and a UTF-8 decode probe, renders each kept file as a highlighted
HTML section preceded by a table-of-contents entry, and exports the
assembled document to PDF.

Shallow embedding conventions:
* A filesystem path is its list of segments (`List String`), as in
  `pathlib.PurePath.parts`; real segments never contain a slash.
* Byte contents are `List Nat` (each entry a byte value).
* External collaborators (the filesystem, Pygments, WeasyPrint, the JSON
  parser) are modelled by their outcomes, passed in as inputs: a file
  carries the outcome of opening/reading it and the outcome of the
  read-and-highlight step of the render loop; the PDF export step is an
  `Except`; the configuration source is a three-way sum
  (missing / malformed / parsed).
* Console prints that name a file are modelled as structured diagnostics.
-/

/-- Shell-wildcard matching of a pattern against a whole string, on
character lists. Models Python `fnmatch.fnmatch` on a POSIX platform
(case-sensitive, `os.path.normcase` is the identity) for the pattern
language the configuration uses: `*` matches any run of characters,
`?` matches exactly one character, every other character matches itself.
(`fnmatch` bracket character classes are not modelled; the configuration
pattern language of this program defines only `*` and `?`.) -/
def globMatch : Nat → List Char → List Char → Bool
  | 0, _, _ => false
  | _ + 1, [], s => s.isEmpty
  | n + 1, '*' :: ps, [] => globMatch n ps []
  | n + 1, '*' :: ps, c :: cs =>
      globMatch n ps (c :: cs) || globMatch n ('*' :: ps) cs
  | _ + 1, '?' :: _, [] => false
  | n + 1, '?' :: ps, _ :: cs => globMatch n ps cs
  | _ + 1, _ :: _, [] => false
  | n + 1, p :: ps, c :: cs => (p == c) && globMatch n ps cs

/-- `fnmatch.fnmatch name pattern`: whole-string wildcard match. The fuel
`pattern.length + name.length + 1` is sufficient: every recursive step of
`globMatch` strictly decreases the summed length of the two lists. -/
def fnmatch (name pattern : String) : Bool :=
  globMatch (pattern.length + name.length + 1) pattern.data name.data

/-- The configuration record loaded from `config.json`
(`OUTPUT_PDF_NAME`, `PYGMENTS_STYLE`, `EXCLUDE_DIRS`, `EXCLUDE_FILES`). -/
structure Config where
  output_pdf_name : String
  pygments_style : String
  exclude_dirs : List String
  exclude_files : List String

/-- `pathlib.PurePath.name`: the last path segment (empty for an empty
path). -/
def pathName (parts : List String) : String :=
  parts.getLast?.getD ""

/-- `path.relative_to(root)` on segment lists: the remaining segments when
`root` is a prefix of `parts`, and `none` (the `ValueError` case) when it
is not. -/
def relative_to (parts root : List String) : Option (List String) :=
  if root.isPrefixOf parts then some (parts.drop root.length) else none

/-- `is_excluded(path, root_path)` from `src/main.py`:
1. if the bare file name matches any pattern of `exclude_files`, the file
   is excluded;
2. otherwise, if the path cannot be expressed relative to the scan root,
   the file is excluded (the caught `ValueError`);
3. otherwise the file is excluded exactly when some segment of the
   relative path's parent (the ancestor directories, the file name
   excluded) matches some pattern of `exclude_dirs`.
`relative_path.parent.parts` is `rel.dropLast` on segment lists. -/
def is_excluded (cfg : Config) (parts root : List String) : Bool :=
  if cfg.exclude_files.any (fun pattern => fnmatch (pathName parts) pattern) then
    true
  else
    match relative_to parts root with
    | none => true
    | some rel =>
        rel.dropLast.any (fun part =>
          cfg.exclude_dirs.any (fun pattern => fnmatch part pattern))

/-- Whether a byte is a UTF-8 continuation byte (`0x80 ≤ b ≤ 0xBF`). -/
def contByte (b : Nat) : Bool :=
  0x80 ≤ b && b ≤ 0xBF

/-- Valid range of the first continuation byte of a three-byte sequence:
`0xE0` forbids overlong forms, `0xED` forbids surrogates. -/
def cont1Range3 (b b1 : Nat) : Bool :=
  if b = 0xE0 then 0xA0 ≤ b1 && b1 ≤ 0xBF
  else if b = 0xED then 0x80 ≤ b1 && b1 ≤ 0x9F
  else contByte b1

/-- Valid range of the first continuation byte of a four-byte sequence:
`0xF0` forbids overlong forms, `0xF4` caps at `U+10FFFF`. -/
def cont1Range4 (b b1 : Nat) : Bool :=
  if b = 0xF0 then 0x90 ≤ b1 && b1 ≤ 0xBF
  else if b = 0xF4 then 0x80 ≤ b1 && b1 ≤ 0x8F
  else contByte b1

/-- Finish a two-byte sequence with lead byte `b`. -/
def decode2 (b : Nat) : List Nat → Option (Nat × List Nat)
  | b1 :: r =>
      if contByte b1 then some ((b - 0xC0) * 0x40 + (b1 - 0x80), r)
      else none
  | _ => none

/-- Finish a three-byte sequence with lead byte `b`. -/
def decode3 (b : Nat) : List Nat → Option (Nat × List Nat)
  | b1 :: b2 :: r =>
      if cont1Range3 b b1 && contByte b2 then
        some ((b - 0xE0) * 0x1000 + (b1 - 0x80) * 0x40 + (b2 - 0x80), r)
      else none
  | _ => none

/-- Finish a four-byte sequence with lead byte `b`. -/
def decode4 (b : Nat) : List Nat → Option (Nat × List Nat)
  | b1 :: b2 :: b3 :: r =>
      if cont1Range4 b b1 && contByte b2 && contByte b3 then
        some ((b - 0xF0) * 0x40000 + (b1 - 0x80) * 0x1000
                + (b2 - 0x80) * 0x40 + (b3 - 0x80), r)
      else none
  | _ => none

/-- Decode one scalar value from the front of a UTF-8 byte stream, with
the validation rules of a strict decoder (Python codec `utf-8`, errors
`strict`): no overlong forms, no surrogates, nothing above `U+10FFFF`.
Returns the scalar value and the remaining bytes, or `none` on an invalid
or truncated sequence. -/
def utf8DecodeChar : List Nat → Option (Nat × List Nat)
  | [] => none
  | b :: tail =>
      if b < 0x80 then some (b, tail)
      else if 0xC2 ≤ b && b ≤ 0xDF then decode2 b tail
      else if 0xE0 ≤ b && b ≤ 0xEF then decode3 b tail
      else if 0xF0 ≤ b && b ≤ 0xF4 then decode4 b tail
      else none

/-- Complete strict UTF-8 decode of a byte list, returning the number of
characters, or `none` if the list is not valid UTF-8; fuelled by the byte
count (each character consumes at least one byte). -/
def countDecodeFuel : Nat → List Nat → Option Nat
  | _, [] => some 0
  | 0, _ :: _ => none
  | fuel + 1, b :: bs =>
      match utf8DecodeChar (b :: bs) with
      | some (_, rest) => (countDecodeFuel fuel rest).map (· + 1)
      | none => none

/-- The number of characters a byte list decodes to under strict UTF-8,
`none` when it is not entirely valid UTF-8. -/
def countDecode (bs : List Nat) : Option Nat :=
  countDecodeFuel bs.length bs

/-- A byte list is valid UTF-8 in its entirety. -/
def validUtf8 (bs : List Nat) : Bool :=
  (countDecode bs).isSome

/-- Result of one incremental decode step: a complete scalar value with
the remaining bytes, an incomplete sequence (the input is a proper prefix
of some valid encoding — a strict incremental decoder buffers it and
waits for more bytes), or an invalid sequence (the decoder raises at
once, however many bytes follow). -/
inductive Utf8Step where
  | ok (c : Nat) (rest : List Nat)
  | incomplete
  | invalid
deriving DecidableEq

/-- Incremental counterpart of `decode2`: a lone two-byte lead is
incomplete, a bad continuation is invalid at once. -/
def step2 (b : Nat) : List Nat → Utf8Step
  | [] => .incomplete
  | b1 :: r =>
      if contByte b1 then .ok ((b - 0xC0) * 0x40 + (b1 - 0x80)) r
      else .invalid

/-- Incremental counterpart of `decode3`. -/
def step3 (b : Nat) : List Nat → Utf8Step
  | [] => .incomplete
  | [b1] => if cont1Range3 b b1 then .incomplete else .invalid
  | b1 :: b2 :: r =>
      if cont1Range3 b b1 then
        if contByte b2 then
          .ok ((b - 0xE0) * 0x1000 + (b1 - 0x80) * 0x40 + (b2 - 0x80)) r
        else .invalid
      else .invalid

/-- Incremental counterpart of `decode4`. -/
def step4 (b : Nat) : List Nat → Utf8Step
  | [] => .incomplete
  | [b1] => if cont1Range4 b b1 then .incomplete else .invalid
  | [b1, b2] =>
      if cont1Range4 b b1 then
        if contByte b2 then .incomplete else .invalid
      else .invalid
  | b1 :: b2 :: b3 :: r =>
      if cont1Range4 b b1 then
        if contByte b2 then
          if contByte b3 then
            .ok ((b - 0xF0) * 0x40000 + (b1 - 0x80) * 0x1000
                  + (b2 - 0x80) * 0x40 + (b3 - 0x80)) r
          else .invalid
        else .invalid
      else .invalid

/-- One step of Python's incremental strict UTF-8 decoder: like
`utf8DecodeChar`, but distinguishing an incomplete trailing sequence
(buffered until more bytes arrive) from an invalid one (raises). -/
def utf8Step : List Nat → Utf8Step
  | [] => .incomplete
  | b :: tail =>
      if b < 0x80 then .ok b tail
      else if 0xC2 ≤ b && b ≤ 0xDF then step2 b tail
      else if 0xE0 ≤ b && b ≤ 0xEF then step3 b tail
      else if 0xF0 ≤ b && b ≤ 0xF4 then step4 b tail
      else .invalid

/-- Decode one buffered chunk as Python's incremental decoder does:
consume complete characters while possible, return their count and the
undecoded incomplete tail (kept pending for the next chunk), or `none`
as soon as an invalid sequence is met; fuelled by the byte count. -/
def chunkDecodeFuel : Nat → List Nat → Option (Nat × List Nat)
  | _, [] => some (0, [])
  | 0, b :: bs => some (0, b :: bs)
  | fuel + 1, b :: bs =>
      match utf8Step (b :: bs) with
      | .ok _ rest => (chunkDecodeFuel fuel rest).map (fun p => (p.1 + 1, p.2))
      | .incomplete => some (0, b :: bs)
      | .invalid => none

/-- `chunkDecodeFuel` at its sufficient fuel. -/
def chunkDecode (bs : List Nat) : Option (Nat × List Nat) :=
  chunkDecodeFuel bs.length bs

/-- The loop of `TextIOWrapper.read(budget)`: while fewer than `budget`
characters have been decoded, read the next chunk and decode the pending
bytes plus the whole chunk (an invalid sequence anywhere in it raises,
even past the budget); at end of file with the budget unmet, finalizing
with a pending incomplete tail raises. Returns `false` exactly when the
read raises. -/
def probeLoop (budget : Nat) : Nat → List Nat → List (List Nat) → Bool
  | acc, pending, [] =>
      if budget ≤ acc then true else pending.isEmpty
  | acc, pending, chunk :: rest =>
      if budget ≤ acc then true
      else
        match chunkDecode (pending ++ chunk) with
        | none => false
        | some p => probeLoop budget (acc + p.1) p.2 rest

/-- Split a byte list into the chunks a buffered text-mode read of a
regular file sees: 8192 bytes each (`TextIOWrapper._CHUNK_SIZE`, matching
the default buffer size), the last one shorter; fuelled by the byte
count. -/
def chunkifyFuel : Nat → List Nat → List (List Nat)
  | _, [] => []
  | 0, bs => [bs]
  | fuel + 1, b :: bs =>
      (b :: bs).take 8192 :: chunkifyFuel fuel ((b :: bs).drop 8192)

/-- `chunkifyFuel` at its sufficient fuel. -/
def chunkify (bs : List Nat) : List (List Nat) :=
  chunkifyFuel bs.length bs

/-- `f.read(1024)` on a text-mode UTF-8 stream over a regular file,
reduced to its success/failure outcome: the chunked incremental decode
with a budget of 1024 characters. The cap is 1024 decoded characters —
not 1024 bytes — and each examined chunk is decoded whole, so a decode
error past the 1024th character but inside an examined 8192-byte chunk
still raises. -/
def readProbe (bs : List Nat) : Bool :=
  probeLoop 1024 0 [] (chunkify bs)

/-- Outcome of opening a file and reading it (the probe in `is_binary`):
either the file's bytes, or an OS-level error (`PermissionError`,
`OSError`, ...) with its message. -/
inductive ReadOutcome where
  | bytes (bs : List Nat)
  | osError (msg : String)
deriving DecidableEq

deriving instance DecidableEq for Except

/-- A file discovered by `project_path.rglob("*")` (a regular file), with
the outcomes of the two external interactions the script has with it:
opening/reading it, and the combined `read_text` + `highlight` step of the
render loop (`.ok` carries the highlighted markup, `.error` the exception
message). -/
structure SrcFile where
  parts : List String
  readOutcome : ReadOutcome
  renderOutcome : Except String String
deriving DecidableEq

/-- A console diagnostic that names a file: the three per-file `print`
calls of the script (binary-skip notice, read error, render-loop error). -/
inductive Diag where
  | binarySkip (path : String)
  | readError (path : String) (msg : String)
  | renderError (path : String) (msg : String)
deriving DecidableEq

/-- The path of the file a diagnostic names. -/
def Diag.path : Diag → String
  | .binarySkip p => p
  | .readError p _ => p
  | .renderError p _ => p

/-- `str(path)` for diagnostics: the segments joined by the separator. -/
def pathStr (parts : List String) : String :=
  String.intercalate "/" parts

/-- `is_binary(path)` from `src/main.py`, with the diagnostics it prints:
opens the file in text mode (UTF-8) and runs `f.read(1024)` — the
chunked read modelled by `readProbe`. Success means not binary; a
`UnicodeDecodeError` means binary with a skip notice; any other read
failure also means binary, with a read-error diagnostic naming the
path. -/
def is_binary (f : SrcFile) : Bool × List Diag :=
  match f.readOutcome with
  | .bytes bs =>
      if readProbe bs then (false, [])
      else (true, [Diag.binarySkip (pathStr f.parts)])
  | .osError e => (true, [Diag.readError (pathStr f.parts) e])

/-- One file's contribution to the filter comprehension
`not is_excluded(p, project_path) and not is_binary(p)`: whether the file
is kept, and the diagnostics printed while deciding. Python's `and`
short-circuits, so `is_binary` runs (and can print) only when
`is_excluded` returned `False`. -/
def filterStep (cfg : Config) (root : List String) (f : SrcFile) :
    Bool × List Diag :=
  if is_excluded cfg f.parts root then (false, [])
  else
    let probe := is_binary f
    (!probe.1, probe.2)

/-- The whole filter comprehension building `target_files`: the kept files
in order, and the diagnostics in print order. -/
def selectTargets (cfg : Config) (root : List String) :
    List SrcFile → List SrcFile × List Diag
  | [] => ([], [])
  | f :: fs =>
      let s := filterStep cfg root f
      let r := selectTargets cfg root fs
      (if s.1 then f :: r.1 else r.1, s.2 ++ r.2)

/-- One entry of `toc_items`: the relative path string and the anchor it
links to (`<li><a href="#anchor">path</a></li>`). -/
structure TocItem where
  path : String
  anchor : String
deriving DecidableEq

/-- One element of `html_parts`: a rendered file section
`<div id="anchor"><h2>heading</h2> body </div>`, with heading the
relative path string and body the highlighted markup. -/
structure FileSection where
  anchor : String
  heading : String
  body : String
deriving DecidableEq

/-- The anchor assigned at loop index `i`: the string `file-i`. -/
def anchorOf (i : Nat) : String :=
  "file-" ++ Nat.repr i

/-- `file_path.relative_to(project_path).as_posix()`: the relative
segments joined by `/` (total on the model; the render loop only reaches
it for files under the root, where `relative_to` is `some`). -/
def relStr (root parts : List String) : String :=
  String.intercalate "/" ((relative_to parts root).getD [])

/-- What the render loop accumulates: `toc_items`, `html_parts` and the
error diagnostics it prints, in order. -/
structure RenderOut where
  toc : List TocItem
  sections : List FileSection
  diags : List Diag
deriving DecidableEq

/-- The render loop `for i, file_path in enumerate(target_files)` starting
at index `i`: every file gets a table-of-contents entry (appended before
the `try` block); a file whose read-and-highlight step succeeds also gets
a rendered section; a file whose step raises gets only a diagnostic
naming its path. -/
def renderLoop (root : List String) : Nat → List SrcFile → RenderOut
  | _, [] => ⟨[], [], []⟩
  | i, f :: fs =>
      let rel := relStr root f.parts
      let a := anchorOf i
      let r := renderLoop root (i + 1) fs
      match f.renderOutcome with
      | .ok hl =>
          ⟨⟨rel, a⟩ :: r.toc, ⟨a, rel, hl⟩ :: r.sections, r.diags⟩
      | .error e =>
          ⟨⟨rel, a⟩ :: r.toc, r.sections,
            Diag.renderError (pathStr f.parts) e :: r.diags⟩

/-- The state of `config.json` as the script starts: absent
(`FileNotFoundError`), present but not JSON (`json.JSONDecodeError`), or
parsed into a configuration record (`config.get` defaults applied). -/
inductive ConfigSrc where
  | missing
  | malformed
  | parsed (cfg : Config)

/-- The module-level configuration load: both failure branches print a
diagnostic and call `exit()` before anything else runs. (The Korean
console messages are paraphrased.) -/
def loadConfig : ConfigSrc → Except String Config
  | .missing => .error "config.json not found, terminating"
  | .malformed => .error "config.json is malformed, terminating"
  | .parsed cfg => .ok cfg

/-- The observable outcome of one run of the script. Fields default to
the not-reached / not-produced value. `scanned` records that the
traversal and filter ran; `output` is the name of the written PDF when
the export succeeded, `none` when it was never attempted or failed. -/
structure RunResult where
  configError : Option String := none
  argError : Bool := false
  scanned : Bool := false
  toc : List TocItem := []
  sections : List FileSection := []
  fileDiags : List Diag := []
  exportError : Option String := none
  output : Option String := none
deriving DecidableEq

/-- The whole script, `main()` included: load the configuration (fatal on
failure, before anything else); validate that the argument is a directory
(fatal otherwise); enumerate and filter the files; run the render loop;
assemble and export. A failing export (`write_pdf` raising) is caught
after all scanning, filtering and rendering work is done: the error is
reported and no output is produced. External outcomes (the discovered
file list, each file's read/render outcomes, the export result) are
inputs. -/
def run (src : ConfigSrc) (rootIsDir : Bool) (root : List String)
    (files : List SrcFile) (exportResult : Except String Unit) : RunResult :=
  match loadConfig src with
  | .error d => { configError := some d }
  | .ok cfg =>
      if rootIsDir then
        let sel := selectTargets cfg root files
        let r := renderLoop root 0 sel.1
        match exportResult with
        | .ok _ =>
            { scanned := true, toc := r.toc, sections := r.sections,
              fileDiags := sel.2 ++ r.diags,
              output := some cfg.output_pdf_name }
        | .error e =>
            { scanned := true, toc := r.toc, sections := r.sections,
              fileDiags := sel.2 ++ r.diags, exportError := some e }
      else { argError := true }

/-- Numeric value of a decimal digit character. -/
def digitVal (c : Char) : Nat :=
  c.toNat - 48

/-- The decimal digit string of a natural number, most significant digit
first, as a well-founded recursion (used to reason about `Nat.repr`). -/
def decDigits (n : Nat) : List Char :=
  if _ : n < 10 then [Nat.digitChar n]
  else decDigits (n / 10) ++ [Nat.digitChar (n % 10)]
decreasing_by exact Nat.div_lt_self (by omega) (by omega)

theorem digitVal_digitChar (d : Nat) (hd : d < 10) :
    digitVal (Nat.digitChar d) = d := by
  interval_cases d <;> rfl

theorem toDigitsCore_eq_decDigits :
    ∀ fuel n ds, n < fuel →
      Nat.toDigitsCore 10 fuel n ds = decDigits n ++ ds := by
  intro fuel
  induction fuel with
  | zero => intro n ds h; omega
  | succ fuel ih =>
      intro n ds h
      rw [Nat.toDigitsCore]
      by_cases h10 : n < 10
      · have hz : n / 10 = 0 := Nat.div_eq_of_lt h10
        simp only [hz, if_pos]
        rw [decDigits, dif_pos h10, Nat.mod_eq_of_lt h10]
        rfl
      · have hnz : ¬ n / 10 = 0 := by
          intro hc
          exact h10 (by omega)
        simp only [hnz, if_neg, not_false_iff]
        rw [ih (n / 10) _ (by omega)]
        conv_rhs => rw [decDigits]
        rw [dif_neg h10, List.append_assoc]
        rfl

theorem repr_eq_decDigits (n : Nat) :
    Nat.repr n = (decDigits n).asString := by
  rw [Nat.repr, Nat.toDigits, toDigitsCore_eq_decDigits (n + 1) n [] (by omega),
    List.append_nil]

theorem decDigits_val (n : Nat) :
    ∀ acc : Nat,
      (decDigits n).foldl (fun a c => a * 10 + digitVal c) acc
        = acc * 10 ^ (decDigits n).length + n := by
  induction n using Nat.strong_induction_on with
  | _ n ih =>
    intro acc
    by_cases h : n < 10
    · rw [decDigits, dif_pos h]
      simp [digitVal_digitChar n h]
    · rw [decDigits, dif_neg h]
      rw [List.foldl_append]
      have hlt : n / 10 < n := Nat.div_lt_self (by omega) (by omega)
      rw [ih (n / 10) hlt acc]
      simp only [List.foldl, List.length_append, List.length_singleton]
      rw [digitVal_digitChar (n % 10) (Nat.mod_lt n (by omega)), pow_succ,
        ← Nat.mul_assoc]
      generalize acc * 10 ^ (decDigits (n / 10)).length = M
      omega

theorem decDigits_inj {m n : Nat} (h : decDigits m = decDigits n) : m = n := by
  have hm := decDigits_val m 0
  have hn := decDigits_val n 0
  rw [h] at hm
  simp only [Nat.zero_mul, Nat.zero_add] at hm hn
  omega

theorem asString_inj {l₁ l₂ : List Char}
    (h : l₁.asString = l₂.asString) : l₁ = l₂ := by
  have hd := congrArg String.data h
  simpa [List.asString] using hd

/-- `Nat.repr` is injective: distinct numbers print as distinct decimal
strings. -/
theorem repr_injective {m n : Nat} (h : Nat.repr m = Nat.repr n) : m = n := by
  rw [repr_eq_decDigits, repr_eq_decDigits] at h
  exact decDigits_inj (asString_inj h)

/-- Anchors are unique per loop index: `file-i = file-j` forces `i = j`. -/
theorem anchorOf_inj {m n : Nat} (h : anchorOf m = anchorOf n) : m = n := by
  apply repr_injective
  apply String.ext
  have hd := congrArg String.data h
  simp only [anchorOf, String.data_append] at hd
  exact List.append_cancel_left hd

theorem selectTargets_eq_filter (cfg : Config) (root : List String) :
    ∀ fs : List SrcFile,
      (selectTargets cfg root fs).1
        = fs.filter (fun f => (filterStep cfg root f).1) := by
  intro fs
  induction fs with
  | nil => rfl
  | cons f fs ih =>
      simp only [selectTargets, List.filter_cons]
      by_cases h : (filterStep cfg root f).1 = true
      · simp [h, ih]
      · simp [h, ih]

theorem renderLoop_toc_length (root : List String) :
    ∀ (fs : List SrcFile) (i : Nat),
      (renderLoop root i fs).toc.length = fs.length := by
  intro fs
  induction fs with
  | nil => intro i; rfl
  | cons f fs ih =>
      intro i
      cases hr : f.renderOutcome <;> simp [renderLoop, hr, ih]

theorem renderLoop_append (root : List String) :
    ∀ (l₁ l₂ : List SrcFile) (i : Nat),
      renderLoop root i (l₁ ++ l₂)
        = ⟨(renderLoop root i l₁).toc
              ++ (renderLoop root (i + l₁.length) l₂).toc,
           (renderLoop root i l₁).sections
              ++ (renderLoop root (i + l₁.length) l₂).sections,
           (renderLoop root i l₁).diags
              ++ (renderLoop root (i + l₁.length) l₂).diags⟩ := by
  intro l₁
  induction l₁ with
  | nil => intro l₂ i; simp [renderLoop]
  | cons f l₁ ih =>
      intro l₂ i
      have harith : i + (l₁.length + 1) = (i + 1) + l₁.length := by omega
      cases hr : f.renderOutcome <;>
        simp [renderLoop, hr, ih, List.length_cons, harith]

theorem renderLoop_sections_anchors (root : List String) :
    ∀ (fs : List SrcFile) (i : Nat),
      ∀ s ∈ (renderLoop root i fs).sections,
        ∃ j, i ≤ j ∧ j < i + fs.length ∧ s.anchor = anchorOf j := by
  intro fs
  induction fs with
  | nil => intro i s hs; simp [renderLoop] at hs
  | cons f fs ih =>
      intro i s hs
      cases hr : f.renderOutcome with
      | ok hl =>
          rw [renderLoop, hr] at hs
          simp only [List.mem_cons] at hs
          rcases hs with hs | hs
          · exact ⟨i, le_refl i, by simp, by rw [hs]⟩
          · obtain ⟨j, h₁, h₂, h₃⟩ := ih (i + 1) s hs
            exact ⟨j, by omega, by simp only [List.length_cons]; omega, h₃⟩
      | error e =>
          rw [renderLoop, hr] at hs
          simp only at hs
          obtain ⟨j, h₁, h₂, h₃⟩ := ih (i + 1) s hs
          exact ⟨j, by omega, by simp only [List.length_cons]; omega, h₃⟩

theorem renderLoop_filter_anchor_nil (root : List String)
    (fs : List SrcFile) (i k : Nat) (hk : k < i ∨ i + fs.length ≤ k) :
    (renderLoop root i fs).sections.filter
      (fun s => s.anchor == anchorOf k) = [] := by
  rw [List.filter_eq_nil_iff]
  intro s hs
  obtain ⟨j, h₁, h₂, h₃⟩ := renderLoop_sections_anchors root fs i s hs
  simp only [h₃, beq_iff_eq]
  intro hc
  have := anchorOf_inj hc
  omega

theorem renderLoop_allOk (root : List String) :
    ∀ (fs : List SrcFile) (i : Nat),
      (∀ f ∈ fs, ∃ hl, f.renderOutcome = .ok hl) →
      (renderLoop root i fs).sections.map
          (fun s => TocItem.mk s.heading s.anchor)
        = (renderLoop root i fs).toc := by
  intro fs
  induction fs with
  | nil => intro i _; rfl
  | cons f fs ih =>
      intro i hok
      obtain ⟨hl, hr⟩ := hok f (List.mem_cons_self f fs)
      have hrest : ∀ g ∈ fs, ∃ hl, g.renderOutcome = .ok hl :=
        fun g hg => hok g (List.mem_cons_of_mem f hg)
      simp [renderLoop, hr, ih (i + 1) hrest]

theorem count_one_split {α : Type} [DecidableEq α] {l : List α} {a : α}
    (h : l.count a = 1) :
    ∃ l₁ l₂, l = l₁ ++ a :: l₂ ∧ a ∉ l₁ ∧ a ∉ l₂ := by
  have hmem : a ∈ l := by
    rw [← List.count_pos_iff]
    omega
  obtain ⟨s, t, hst⟩ := List.append_of_mem hmem
  by_cases hs : a ∈ s
  · exfalso
    obtain ⟨s₁, s₂, hs₁₂⟩ := List.append_of_mem hs
    rw [hst, hs₁₂] at h
    simp [List.count_append, List.count_cons] at h
    omega
  · refine ⟨s, t, hst, hs, ?_⟩
    intro ht
    rw [hst] at h
    have hzs : s.count a = 0 := List.count_eq_zero.mpr hs
    have hpos : 0 < t.count a := List.count_pos_iff.mpr ht
    rw [List.count_append, List.count_cons_self, hzs] at h
    omega

theorem decode2_consume {b c : Nat} {tail rest : List Nat}
    (h : decode2 b tail = some (c, rest)) :
    ∃ b1, tail = b1 :: rest ∧ ∀ t, decode2 b (b1 :: t) = some (c, t) := by
  cases tail with
  | nil => simp [decode2] at h
  | cons b1 r =>
      by_cases hc : contByte b1 = true
      · simp only [decode2, if_pos hc, Option.some.injEq, Prod.mk.injEq] at h
        obtain ⟨hcv, hr⟩ := h
        subst hr
        exact ⟨b1, rfl, fun t => by simp [decode2, hc, hcv]⟩
      · simp [decode2, hc] at h

theorem decode3_consume {b c : Nat} {tail rest : List Nat}
    (h : decode3 b tail = some (c, rest)) :
    ∃ b1 b2, tail = b1 :: b2 :: rest ∧
      ∀ t, decode3 b (b1 :: b2 :: t) = some (c, t) := by
  match tail with
  | [] => simp [decode3] at h
  | [b1] => simp [decode3] at h
  | b1 :: b2 :: r =>
      by_cases hc : (cont1Range3 b b1 && contByte b2) = true
      · simp only [decode3, if_pos hc, Option.some.injEq, Prod.mk.injEq] at h
        obtain ⟨hcv, hr⟩ := h
        subst hr
        exact ⟨b1, b2, rfl, fun t => by simp [decode3, hc, hcv]⟩
      · simp [decode3, hc] at h

theorem decode4_consume {b c : Nat} {tail rest : List Nat}
    (h : decode4 b tail = some (c, rest)) :
    ∃ b1 b2 b3, tail = b1 :: b2 :: b3 :: rest ∧
      ∀ t, decode4 b (b1 :: b2 :: b3 :: t) = some (c, t) := by
  match tail with
  | [] => simp [decode4] at h
  | [b1] => simp [decode4] at h
  | [b1, b2] => simp [decode4] at h
  | b1 :: b2 :: b3 :: r =>
      by_cases hc : (cont1Range4 b b1 && contByte b2 && contByte b3) = true
      · simp only [decode4, if_pos hc, Option.some.injEq, Prod.mk.injEq] at h
        obtain ⟨hcv, hr⟩ := h
        subst hr
        exact ⟨b1, b2, b3, rfl, fun t => by simp [decode4, hc, hcv]⟩
      · simp [decode4, hc] at h

/-- Decoding one character consumes a fixed nonempty byte prefix that
decodes the same way in front of any continuation of the stream. -/
theorem utf8DecodeChar_consume {bs rest : List Nat} {c : Nat}
    (h : utf8DecodeChar bs = some (c, rest)) :
    ∃ u, u ≠ [] ∧ bs = u ++ rest ∧
      ∀ t, utf8DecodeChar (u ++ t) = some (c, t) := by
  cases bs with
  | nil => simp [utf8DecodeChar] at h
  | cons b tail =>
      simp only [utf8DecodeChar] at h
      by_cases h1 : b < 0x80
      · rw [if_pos h1] at h
        obtain ⟨hc, hr⟩ : b = c ∧ tail = rest := by simpa using h
        subst hc; subst hr
        exact ⟨[b], by simp, rfl, fun t => by simp [utf8DecodeChar, h1]⟩
      · rw [if_neg h1] at h
        by_cases h2 : (0xC2 ≤ b && b ≤ 0xDF) = true
        · rw [if_pos h2] at h
          obtain ⟨b1, htail, hext⟩ := decode2_consume h
          subst htail
          exact ⟨[b, b1], by simp, rfl,
            fun t => by
              simp only [List.cons_append, List.nil_append, utf8DecodeChar,
                if_neg h1, if_pos h2]
              exact hext t⟩
        · rw [if_neg h2] at h
          by_cases h3 : (0xE0 ≤ b && b ≤ 0xEF) = true
          · rw [if_pos h3] at h
            obtain ⟨b1, b2, htail, hext⟩ := decode3_consume h
            subst htail
            exact ⟨[b, b1, b2], by simp, rfl,
              fun t => by
                simp only [List.cons_append, List.nil_append, utf8DecodeChar,
                  if_neg h1, if_neg h2, if_pos h3]
                exact hext t⟩
          · rw [if_neg h3] at h
            by_cases h4 : (0xF0 ≤ b && b ≤ 0xF4) = true
            · rw [if_pos h4] at h
              obtain ⟨b1, b2, b3, htail, hext⟩ := decode4_consume h
              subst htail
              exact ⟨[b, b1, b2, b3], by simp, rfl,
                fun t => by
                  simp only [List.cons_append, List.nil_append, utf8DecodeChar,
                    if_neg h1, if_neg h2, if_neg h3, if_pos h4]
                  exact hext t⟩
            · rw [if_neg h4] at h
              simp at h

theorem utf8DecodeChar_shorter {bs rest : List Nat} {c : Nat}
    (h : utf8DecodeChar bs = some (c, rest)) : rest.length < bs.length := by
  obtain ⟨u, hu, hbs, _⟩ := utf8DecodeChar_consume h
  cases u with
  | nil => exact absurd rfl hu
  | cons x u' =>
      rw [hbs]
      simp [List.length_append]
      omega

theorem countDecodeFuel_congr :
    ∀ fuel₁ fuel₂ bs, bs.length ≤ fuel₁ → bs.length ≤ fuel₂ →
      countDecodeFuel fuel₁ bs = countDecodeFuel fuel₂ bs := by
  intro fuel₁
  induction fuel₁ with
  | zero =>
      intro fuel₂ bs h1 _
      have : bs = [] := List.length_eq_zero.mp (by omega)
      subst this
      cases fuel₂ <;> rfl
  | succ fuel₁ ih =>
      intro fuel₂ bs h1 h2
      cases bs with
      | nil => cases fuel₂ <;> rfl
      | cons b bs' =>
          cases fuel₂ with
          | zero => simp at h2
          | succ fuel₂ =>
              simp only [countDecodeFuel]
              cases hd : utf8DecodeChar (b :: bs') with
              | none => rfl
              | some pr =>
                  obtain ⟨c, rest⟩ := pr
                  have hr := utf8DecodeChar_shorter hd
                  simp only [List.length_cons] at h1 h2 hr
                  show Option.map (fun x => x + 1) (countDecodeFuel fuel₁ rest)
                      = Option.map (fun x => x + 1) (countDecodeFuel fuel₂ rest)
                  rw [ih fuel₂ rest (by omega) (by omega)]

theorem countDecode_eq_of_decode {bs rest : List Nat} {c : Nat}
    (h : utf8DecodeChar bs = some (c, rest)) :
    countDecode bs = (countDecode rest).map (· + 1) := by
  cases bs with
  | nil => simp [utf8DecodeChar] at h
  | cons b bs' =>
      have hr := utf8DecodeChar_shorter h
      simp only [List.length_cons] at hr
      unfold countDecode
      simp only [List.length_cons, countDecodeFuel, h]
      rw [countDecodeFuel_congr bs'.length rest.length rest (by omega)
        (le_refl _)]

theorem step2_ok_iff {b c : Nat} {tail r : List Nat} :
    step2 b tail = .ok c r ↔ decode2 b tail = some (c, r) := by
  cases tail with
  | nil => simp [step2, decode2]
  | cons b1 t =>
      by_cases hc : contByte b1 = true
      · simp [step2, decode2, hc, and_assoc]
      · simp [step2, decode2, hc]

theorem step3_ok_iff {b c : Nat} {tail r : List Nat} :
    step3 b tail = .ok c r ↔ decode3 b tail = some (c, r) := by
  match tail with
  | [] => simp [step3, decode3]
  | [b1] =>
      by_cases h1 : cont1Range3 b b1 = true
      · simp [step3, decode3, h1]
      · simp [step3, decode3, h1]
  | b1 :: b2 :: t =>
      by_cases h1 : cont1Range3 b b1 = true
      · by_cases h2 : contByte b2 = true
        · simp [step3, decode3, h1, h2, and_assoc]
        · simp [step3, decode3, h1, h2]
      · simp [step3, decode3, h1]

theorem step4_ok_iff {b c : Nat} {tail r : List Nat} :
    step4 b tail = .ok c r ↔ decode4 b tail = some (c, r) := by
  match tail with
  | [] => simp [step4, decode4]
  | [b1] =>
      by_cases h1 : cont1Range4 b b1 = true
      · simp [step4, decode4, h1]
      · simp [step4, decode4, h1]
  | [b1, b2] =>
      by_cases h1 : cont1Range4 b b1 = true
      · by_cases h2 : contByte b2 = true
        · simp [step4, decode4, h1, h2]
        · simp [step4, decode4, h1, h2]
      · simp [step4, decode4, h1]
  | b1 :: b2 :: b3 :: t =>
      by_cases h1 : cont1Range4 b b1 = true
      · by_cases h2 : contByte b2 = true
        · by_cases h3 : contByte b3 = true
          · simp [step4, decode4, h1, h2, h3, and_assoc]
          · simp [step4, decode4, h1, h2, h3]
        · simp [step4, decode4, h1, h2]
      · simp [step4, decode4, h1]

/-- One incremental step yields a character exactly when the one-shot
decoder does, with the same value and remainder. -/
theorem utf8Step_ok_iff {bs : List Nat} {c : Nat} {r : List Nat} :
    utf8Step bs = .ok c r ↔ utf8DecodeChar bs = some (c, r) := by
  cases bs with
  | nil => simp [utf8Step, utf8DecodeChar]
  | cons b tail =>
      simp only [utf8Step, utf8DecodeChar]
      by_cases h1 : b < 0x80
      · simp [h1, and_assoc]
      · rw [if_neg h1, if_neg h1]
        by_cases h2 : (0xC2 ≤ b && b ≤ 0xDF) = true
        · rw [if_pos h2, if_pos h2]
          exact step2_ok_iff
        · rw [if_neg h2, if_neg h2]
          by_cases h3 : (0xE0 ≤ b && b ≤ 0xEF) = true
          · rw [if_pos h3, if_pos h3]
            exact step3_ok_iff
          · rw [if_neg h3, if_neg h3]
            by_cases h4 : (0xF0 ≤ b && b ≤ 0xF4) = true
            · rw [if_pos h4, if_pos h4]
              exact step4_ok_iff
            · rw [if_neg h4, if_neg h4]
              simp

theorem decode3_none_of_bad1 {b b1 : Nat} (h : cont1Range3 b b1 = false) :
    ∀ t, decode3 b (b1 :: t) = none := by
  intro t
  cases t with
  | nil => rfl
  | cons b2 t' => simp [decode3, h]

theorem decode4_none_of_bad1 {b b1 : Nat} (h : cont1Range4 b b1 = false) :
    ∀ t, decode4 b (b1 :: t) = none := by
  intro t
  match t with
  | [] => rfl
  | [b2] => rfl
  | b2 :: b3 :: t' => simp [decode4, h]

theorem decode4_none_of_bad2 {b b1 b2 : Nat} (h : contByte b2 = false) :
    ∀ t, decode4 b (b1 :: b2 :: t) = none := by
  intro t
  cases t with
  | nil => rfl
  | cons b3 t' => simp [decode4, h]

/-- An invalid sequence stays invalid no matter what bytes follow: the
one-shot decoder fails on every extension of it. -/
theorem utf8Step_invalid_extend {s : List Nat}
    (h : utf8Step s = .invalid) :
    ∀ y, utf8DecodeChar (s ++ y) = none := by
  intro y
  cases s with
  | nil => simp [utf8Step] at h
  | cons b tail =>
      simp only [utf8Step] at h
      simp only [List.cons_append, utf8DecodeChar]
      by_cases h1 : b < 0x80
      · rw [if_pos h1] at h
        simp at h
      · rw [if_neg h1] at h
        rw [if_neg h1]
        by_cases h2 : (0xC2 <= b && b <= 0xDF) = true
        · rw [if_pos h2] at h
          rw [if_pos h2]
          cases tail with
          | nil => simp [step2] at h
          | cons b1 t =>
              by_cases hc : contByte b1 = true
              · simp [step2, hc] at h
              · simp [decode2, hc]
        · rw [if_neg h2] at h
          rw [if_neg h2]
          by_cases h3 : (0xE0 <= b && b <= 0xEF) = true
          · rw [if_pos h3] at h
            rw [if_pos h3]
            match tail, h with
            | [b1], h =>
                by_cases hc : cont1Range3 b b1 = true
                · simp [step3, hc] at h
                · exact decode3_none_of_bad1
                    (by simpa using hc) y
            | b1 :: b2 :: t, h =>
                by_cases hc : cont1Range3 b b1 = true
                · by_cases hc2 : contByte b2 = true
                  · simp [step3, hc, hc2] at h
                  · simp [decode3, hc2]
                · simp [decode3, hc]
          · rw [if_neg h3] at h
            rw [if_neg h3]
            by_cases h4 : (0xF0 <= b && b <= 0xF4) = true
            · rw [if_pos h4] at h
              rw [if_pos h4]
              match tail, h with
              | [b1], h =>
                  by_cases hc : cont1Range4 b b1 = true
                  · simp [step4, hc] at h
                  · exact decode4_none_of_bad1 (by simpa using hc) y
              | [b1, b2], h =>
                  by_cases hc : cont1Range4 b b1 = true
                  · by_cases hc2 : contByte b2 = true
                    · simp [step4, hc, hc2] at h
                    · exact decode4_none_of_bad2 (by simpa using hc2) y
                  · exact decode4_none_of_bad1 (by simpa using hc) (b2 :: y)
              | b1 :: b2 :: b3 :: t, h =>
                  by_cases hc : cont1Range4 b b1 = true
                  · by_cases hc2 : contByte b2 = true
                    · by_cases hc3 : contByte b3 = true
                      · simp [step4, hc, hc2, hc3] at h
                      · simp [decode4, hc3]
                    · simp [decode4, hc2]
                  · simp [decode4, hc]
            · rw [if_neg h4]

theorem chunkDecodeFuel_congr :
    ∀ fuel₁ fuel₂ bs, bs.length ≤ fuel₁ → bs.length ≤ fuel₂ →
      chunkDecodeFuel fuel₁ bs = chunkDecodeFuel fuel₂ bs := by
  intro fuel₁
  induction fuel₁ with
  | zero =>
      intro fuel₂ bs h1 _
      have : bs = [] := List.length_eq_zero.mp (by omega)
      subst this
      cases fuel₂ <;> rfl
  | succ fuel₁ ih =>
      intro fuel₂ bs h1 h2
      cases bs with
      | nil => cases fuel₂ <;> rfl
      | cons b bs' =>
          cases fuel₂ with
          | zero => simp at h2
          | succ fuel₂ =>
              simp only [chunkDecodeFuel]
              cases hd : utf8Step (b :: bs') with
              | ok c rest =>
                  have hr := utf8DecodeChar_shorter (utf8Step_ok_iff.mp hd)
                  simp only [List.length_cons] at h1 h2 hr
                  show (chunkDecodeFuel fuel₁ rest).map (fun p => (p.1 + 1, p.2))
                      = (chunkDecodeFuel fuel₂ rest).map (fun p => (p.1 + 1, p.2))
                  rw [ih fuel₂ rest (by omega) (by omega)]
              | incomplete => rfl
              | invalid => rfl

theorem chunkDecode_ok {bs rest : List Nat} {c : Nat}
    (h : utf8Step bs = .ok c rest) :
    chunkDecode bs = (chunkDecode rest).map (fun p => (p.1 + 1, p.2)) := by
  cases bs with
  | nil => simp [utf8Step] at h
  | cons b bs' =>
      have hr := utf8DecodeChar_shorter (utf8Step_ok_iff.mp h)
      simp only [List.length_cons] at hr
      unfold chunkDecode
      simp only [List.length_cons, chunkDecodeFuel, h]
      rw [chunkDecodeFuel_congr bs'.length rest.length rest (by omega)
        (le_refl _)]

theorem chunkDecode_incomplete {b : Nat} {bs : List Nat}
    (h : utf8Step (b :: bs) = .incomplete) :
    chunkDecode (b :: bs) = some (0, b :: bs) := by
  unfold chunkDecode
  simp only [List.length_cons, chunkDecodeFuel, h]

theorem chunkDecode_invalid {b : Nat} {bs : List Nat}
    (h : utf8Step (b :: bs) = .invalid) :
    chunkDecode (b :: bs) = none := by
  unfold chunkDecode
  simp only [List.length_cons, chunkDecodeFuel, h]

/-- The undecoded tail a chunk decode leaves behind is always an
incomplete sequence (possibly empty), never a decodable one. -/
theorem chunkDecode_some_tail :
    ∀ n bs k tail, bs.length ≤ n → chunkDecode bs = some (k, tail) →
      utf8Step tail = .incomplete := by
  intro n
  induction n with
  | zero =>
      intro bs k tail h hcd
      have : bs = [] := List.length_eq_zero.mp (by omega)
      subst this
      obtain ⟨-, rfl⟩ : 0 = k ∧ [] = tail := by
        simpa [chunkDecode, chunkDecodeFuel] using hcd
      rfl
  | succ n ih =>
      intro bs k tail h hcd
      cases bs with
      | nil =>
          obtain ⟨-, rfl⟩ : 0 = k ∧ [] = tail := by
            simpa [chunkDecode, chunkDecodeFuel] using hcd
          rfl
      | cons b bs' =>
          cases hd : utf8Step (b :: bs') with
          | ok c rest =>
              rw [chunkDecode_ok hd] at hcd
              cases hcr : chunkDecode rest with
              | none => rw [hcr] at hcd; simp at hcd
              | some p =>
                  obtain ⟨k0, t0⟩ := p
                  rw [hcr] at hcd
                  obtain ⟨-, rfl⟩ : k0 + 1 = k ∧ t0 = tail := by
                    simpa using hcd
                  have hr := utf8DecodeChar_shorter (utf8Step_ok_iff.mp hd)
                  simp only [List.length_cons] at h hr
                  exact ih rest k0 t0 (by omega) hcr
          | incomplete =>
              rw [chunkDecode_incomplete hd] at hcd
              obtain ⟨-, rfl⟩ : 0 = k ∧ b :: bs' = tail := by
                simpa using hcd
              exact hd
          | invalid => rw [chunkDecode_invalid hd] at hcd; simp at hcd

/-- A chunk on which the incremental decoder raises poisons every
extension: no byte list starting with it is valid UTF-8. -/
theorem chunkDecode_none_extend :
    ∀ n bs, bs.length ≤ n → chunkDecode bs = none →
      ∀ y, countDecode (bs ++ y) = none := by
  intro n
  induction n with
  | zero =>
      intro bs h hcd y
      have : bs = [] := List.length_eq_zero.mp (by omega)
      subst this
      simp [chunkDecode, chunkDecodeFuel] at hcd
  | succ n ih =>
      intro bs h hcd y
      cases bs with
      | nil => simp [chunkDecode, chunkDecodeFuel] at hcd
      | cons b bs' =>
          cases hd : utf8Step (b :: bs') with
          | ok c rest =>
              rw [chunkDecode_ok hd] at hcd
              cases hcr : chunkDecode rest with
              | some p => rw [hcr] at hcd; simp at hcd
              | none =>
                  have hdec := utf8Step_ok_iff.mp hd
                  obtain ⟨u, hu, hbs, hext⟩ := utf8DecodeChar_consume hdec
                  have hr := utf8DecodeChar_shorter hdec
                  simp only [List.length_cons] at h hr
                  have hd2 : utf8DecodeChar ((b :: bs') ++ y)
                      = some (c, rest ++ y) := by
                    rw [hbs, List.append_assoc]
                    exact hext (rest ++ y)
                  rw [countDecode_eq_of_decode hd2,
                    ih rest (by omega) hcr y]
                  rfl
          | incomplete => rw [chunkDecode_incomplete hd] at hcd; simp at hcd
          | invalid =>
              have hnone : utf8DecodeChar (b :: (bs' ++ y)) = none := by
                simpa using utf8Step_invalid_extend hd y
              show countDecode (b :: (bs' ++ y)) = none
              unfold countDecode
              simp only [List.length_cons, countDecodeFuel, hnone]

/-- Decoding a chunk and then the rest of the stream is the same as
decoding the stream: the chunk's characters come first, then those of
its incomplete tail glued to the rest. -/
theorem chunkDecode_some_extend :
    ∀ n bs k tail, bs.length ≤ n → chunkDecode bs = some (k, tail) →
      ∀ y, countDecode (bs ++ y)
        = (countDecode (tail ++ y)).map (· + k) := by
  intro n
  induction n with
  | zero =>
      intro bs k tail h hcd y
      have : bs = [] := List.length_eq_zero.mp (by omega)
      subst this
      obtain ⟨rfl, rfl⟩ : 0 = k ∧ [] = tail := by
        simpa [chunkDecode, chunkDecodeFuel] using hcd
      cases countDecode ([] ++ y) <;> simp
  | succ n ih =>
      intro bs k tail h hcd y
      cases bs with
      | nil =>
          obtain ⟨rfl, rfl⟩ : 0 = k ∧ [] = tail := by
            simpa [chunkDecode, chunkDecodeFuel] using hcd
          cases countDecode ([] ++ y) <;> simp
      | cons b bs' =>
          cases hd : utf8Step (b :: bs') with
          | ok c rest =>
              rw [chunkDecode_ok hd] at hcd
              cases hcr : chunkDecode rest with
              | none => rw [hcr] at hcd; simp at hcd
              | some p =>
                  obtain ⟨k0, t0⟩ := p
                  rw [hcr] at hcd
                  obtain ⟨rfl, rfl⟩ : k0 + 1 = k ∧ t0 = tail := by
                    simpa using hcd
                  have hdec := utf8Step_ok_iff.mp hd
                  obtain ⟨u, hu, hbs, hext⟩ := utf8DecodeChar_consume hdec
                  have hr := utf8DecodeChar_shorter hdec
                  simp only [List.length_cons] at h hr
                  have hd2 : utf8DecodeChar ((b :: bs') ++ y)
                      = some (c, rest ++ y) := by
                    rw [hbs, List.append_assoc]
                    exact hext (rest ++ y)
                  rw [countDecode_eq_of_decode hd2,
                    ih rest k0 t0 (by omega) hcr y]
                  cases countDecode (t0 ++ y) <;> simp [Nat.add_assoc]
          | incomplete =>
              rw [chunkDecode_incomplete hd] at hcd
              obtain ⟨rfl, rfl⟩ : 0 = k ∧ b :: bs' = tail := by
                simpa using hcd
              cases countDecode ((b :: bs') ++ y) <;> simp
          | invalid => rw [chunkDecode_invalid hd] at hcd; simp at hcd

theorem chunkifyFuel_flatten :
    ∀ fuel bs, (chunkifyFuel fuel bs).flatten = bs := by
  intro fuel
  induction fuel with
  | zero => intro bs; cases bs <;> simp [chunkifyFuel]
  | succ fuel ih =>
      intro bs
      cases bs with
      | nil => simp [chunkifyFuel]
      | cons b bs' => simp [chunkifyFuel, ih]

/-- Reassembling the chunks of a byte list gives the byte list back. -/
theorem chunkify_flatten (bs : List Nat) : (chunkify bs).flatten = bs :=
  chunkifyFuel_flatten bs.length bs

/-- A file whose whole content is valid UTF-8 passes the chunked read:
no examined chunk can contain an invalid sequence, and any pending tail
still has bytes coming after it. -/
theorem probeLoop_true_of_valid :
    ∀ (chunks : List (List Nat)) (budget acc : Nat) (pending : List Nat),
      utf8Step pending = .incomplete →
      validUtf8 (pending ++ chunks.flatten) = true →
      probeLoop budget acc pending chunks = true := by
  intro chunks
  induction chunks with
  | nil =>
      intro budget acc pending hp hv
      simp only [List.flatten_nil, List.append_nil] at hv
      by_cases hba : budget ≤ acc
      · simp [probeLoop, hba]
      · simp only [probeLoop, if_neg hba]
        cases pending with
        | nil => rfl
        | cons b p =>
            exfalso
            have hnone : utf8DecodeChar (b :: p) = none := by
              cases hdc : utf8DecodeChar (b :: p) with
              | none => rfl
              | some pr =>
                  obtain ⟨c0, r0⟩ := pr
                  have hok := utf8Step_ok_iff.mpr hdc
                  rw [hp] at hok
                  simp at hok
            rw [validUtf8] at hv
            unfold countDecode at hv
            simp [countDecodeFuel, hnone] at hv
  | cons chunk rest ih =>
      intro budget acc pending hp hv
      by_cases hba : budget ≤ acc
      · simp [probeLoop, hba]
      · simp only [probeLoop, if_neg hba]
        have hv' : validUtf8 ((pending ++ chunk) ++ rest.flatten) = true := by
          rw [List.append_assoc]
          simpa [List.flatten_cons] using hv
        cases hcd : chunkDecode (pending ++ chunk) with
        | none =>
            exfalso
            have hn := chunkDecode_none_extend (pending ++ chunk).length
              (pending ++ chunk) (le_refl _) hcd rest.flatten
            rw [validUtf8, hn] at hv'
            simp at hv'
        | some p =>
            obtain ⟨k, tail⟩ := p
            have htail := chunkDecode_some_tail (pending ++ chunk).length
              (pending ++ chunk) k tail (le_refl _) hcd
            have hvt : validUtf8 (tail ++ rest.flatten) = true := by
              have hext := chunkDecode_some_extend (pending ++ chunk).length
                (pending ++ chunk) k tail (le_refl _) hcd rest.flatten
              rw [validUtf8, hext] at hv'
              rw [validUtf8]
              simpa using hv'
            exact ih budget (acc + k) tail htail hvt

/-- `readProbe` succeeds on every entirely-valid-UTF-8 content. -/
theorem readProbe_of_valid {bs : List Nat} (h : validUtf8 bs = true) :
    readProbe bs = true := by
  unfold readProbe
  apply probeLoop_true_of_valid (chunkify bs) 1024 0 [] rfl
  rw [List.nil_append, chunkify_flatten]
  exact h

/-- C3: a file whose bare name matches any pattern of the file-name
exclusion list (shell-wildcard semantics: `*` any run, `?` one character)
is excluded by `is_excluded`, regardless of where the file sits and of
the scan root. -/
theorem filename_pattern_excludes (cfg : Config) (parts root : List String)
    (h : cfg.exclude_files.any
      (fun pattern => fnmatch (pathName parts) pattern) = true) :
    is_excluded cfg parts root = true := by
  simp [is_excluded, h]

/-- Witness for C3: with `exclude_files = ["te?t.txt"]`, both `test.txt`
(under the scan root) and `teXt.txt` (in an unrelated directory) match
the single-character wildcard and are excluded. -/
theorem filename_pattern_excludes_witness :
    ((⟨"o.pdf", "default", [], ["te?t.txt"]⟩ : Config).exclude_files.any
      (fun pattern =>
        fnmatch (pathName ["root", "a", "test.txt"]) pattern) = true) ∧
    is_excluded ⟨"o.pdf", "default", [], ["te?t.txt"]⟩
      ["root", "a", "test.txt"] ["root"] = true ∧
    ((⟨"o.pdf", "default", [], ["te?t.txt"]⟩ : Config).exclude_files.any
      (fun pattern =>
        fnmatch (pathName ["other", "teXt.txt"]) pattern) = true) ∧
    is_excluded ⟨"o.pdf", "default", [], ["te?t.txt"]⟩
      ["other", "teXt.txt"] ["root"] = true :=
  ⟨by decide,
   filename_pattern_excludes _ _ _ (by decide),
   by decide,
   filename_pattern_excludes _ _ _ (by decide)⟩

/-- C4: for a file under the scan root whose bare name matches no
file-name pattern, `is_excluded` is `true` exactly when some single
ancestor directory segment of the root-relative path (the file name
itself excluded) matches some directory pattern; matching is per
segment, so a pattern can never match a string spanning two segments. -/
theorem dir_segment_exclusion_iff (cfg : Config)
    (parts root rel : List String)
    (hname : cfg.exclude_files.any
      (fun pattern => fnmatch (pathName parts) pattern) = false)
    (hrel : relative_to parts root = some rel) :
    is_excluded cfg parts root
      = rel.dropLast.any (fun part =>
          cfg.exclude_dirs.any (fun pattern => fnmatch part pattern)) := by
  simp [is_excluded, hname, hrel]

/-- Witness for C4: the pattern `src/build` spanning two segments never
matches a single segment of `src/build/x.c`, so the file is not excluded;
the single-segment pattern `build*` matches the segment `build_tmp`, so
`build_tmp/c.txt` is excluded. -/
theorem dir_segment_exclusion_witness :
    ((⟨"o.pdf", "default", ["src/build"], []⟩ : Config).exclude_files.any
      (fun pattern =>
        fnmatch (pathName ["r", "src", "build", "x.c"]) pattern) = false) ∧
    relative_to ["r", "src", "build", "x.c"] ["r"]
        = some ["src", "build", "x.c"] ∧
    is_excluded ⟨"o.pdf", "default", ["src/build"], []⟩
      ["r", "src", "build", "x.c"] ["r"] = false ∧
    is_excluded ⟨"o.pdf", "default", ["build*"], []⟩
      ["r", "build_tmp", "c.txt"] ["r"] = true :=
  ⟨by decide, by decide,
   (dir_segment_exclusion_iff ⟨"o.pdf", "default", ["src/build"], []⟩
      ["r", "src", "build", "x.c"] ["r"] ["src", "build", "x.c"]
      (by decide) (by decide)).trans (by decide),
   (dir_segment_exclusion_iff ⟨"o.pdf", "default", ["build*"], []⟩
      ["r", "build_tmp", "c.txt"] ["r"] ["build_tmp", "c.txt"]
      (by decide) (by decide)).trans (by decide)⟩

/-- C8: a path that cannot be expressed relative to the scan root is
treated as excluded; `is_excluded` is a total boolean function, so no
exception can escape it (the `ValueError` of `relative_to` is the `none`
case, absorbed here). -/
theorem outside_root_excluded (cfg : Config) (parts root : List String)
    (h : relative_to parts root = none) :
    is_excluded cfg parts root = true := by
  by_cases hf : cfg.exclude_files.any
      (fun pattern => fnmatch (pathName parts) pattern) = true
  · simp [is_excluded, hf]
  · simp [is_excluded, hf, h]

/-- Witness for C8: `b/c.txt` is not under the root `a` and is excluded
even though no exclusion pattern is configured. -/
theorem outside_root_excluded_witness :
    relative_to ["b", "c.txt"] ["a"] = none ∧
    is_excluded ⟨"o.pdf", "default", [], []⟩ ["b", "c.txt"] ["a"] = true :=
  ⟨by decide, outside_root_excluded _ _ _ (by decide)⟩

/-- C9: a missing or malformed `config.json` makes the run terminate with
only the configuration diagnostic: the result is the default record with
`configError` set — `scanned = false` (no traversal or filtering ran),
`toc = []`, `sections = []`, `output = none` (no output file written),
whatever the command-line argument, directory tree and export outcome
would have been. -/
theorem config_error_fatal_before_scan (rootIsDir : Bool)
    (root : List String) (files : List SrcFile)
    (exportResult : Except String Unit) :
    run .missing rootIsDir root files exportResult
        = { configError := some "config.json not found, terminating" } ∧
    run .malformed rootIsDir root files exportResult
        = { configError := some "config.json is malformed, terminating" } :=
  ⟨rfl, rfl⟩

/-- C10: the filter comprehension short-circuits: for an excluded file,
`filterStep` neither keeps the file nor emits any diagnostic — whatever
the file's read outcome (even an unreadable or binary file), because
`is_binary` is never invoked — and the whole selection pass behaves as if
the file were absent. -/
theorem excluded_file_never_probed (cfg : Config) (root : List String)
    (f : SrcFile) (fs : List SrcFile)
    (h : is_excluded cfg f.parts root = true) :
    filterStep cfg root f = (false, []) ∧
    selectTargets cfg root (f :: fs) = selectTargets cfg root fs := by
  have hstep : filterStep cfg root f = (false, []) := by
    simp [filterStep, h]
  exact ⟨hstep, by simp [selectTargets, hstep]⟩

/-- Witness for C10: a file with an OS read error inside an excluded
directory produces no diagnostic and is simply dropped. -/
theorem excluded_file_never_probed_witness :
    is_excluded ⟨"o.pdf", "default", ["build*"], []⟩
      (⟨["r", "build_x", "bin.dat"], .osError "cannot open",
        .error "boom"⟩ : SrcFile).parts ["r"] = true ∧
    filterStep ⟨"o.pdf", "default", ["build*"], []⟩ ["r"]
      ⟨["r", "build_x", "bin.dat"], .osError "cannot open", .error "boom"⟩
        = (false, []) ∧
    selectTargets ⟨"o.pdf", "default", ["build*"], []⟩ ["r"]
      [⟨["r", "build_x", "bin.dat"], .osError "cannot open", .error "boom"⟩]
        = selectTargets ⟨"o.pdf", "default", ["build*"], []⟩ ["r"] [] := by
  refine ⟨by decide, ?_, ?_⟩
  · exact (excluded_file_never_probed _ _ _ [] (by decide)).1
  · exact (excluded_file_never_probed _ _ _ [] (by decide)).2

/-- C6: when the PDF export step fails, the run ends with the export
error set and no output file; the failure happens after all scanning,
filtering and rendering: the table of contents, the sections and the
per-file diagnostics are exactly those of the corresponding successful
run. -/
theorem export_failure_fatal_after_work (cfg : Config)
    (root : List String) (files : List SrcFile) (e : String) :
    (run (.parsed cfg) true root files (.error e)).exportError = some e ∧
    (run (.parsed cfg) true root files (.error e)).output = none ∧
    (run (.parsed cfg) true root files (.error e)).scanned = true ∧
    (run (.parsed cfg) true root files (.error e)).toc
        = (run (.parsed cfg) true root files (.ok ())).toc ∧
    (run (.parsed cfg) true root files (.error e)).sections
        = (run (.parsed cfg) true root files (.ok ())).sections ∧
    (run (.parsed cfg) true root files (.error e)).fileDiags
        = (run (.parsed cfg) true root files (.ok ())).fileDiags := by
  simp [run, loadConfig]

/-- Counterexample to C1 as stated: a run whose single file passes the
binary probe but fails during the render loop (its `read_text` or
`highlight` raises) ends with one table-of-contents entry and zero
rendered sections — the lists are not in one-to-one correspondence. The
TOC entry is appended before the `try` block, so the failure leaves it
dangling. -/
theorem toc_sections_mismatch_on_render_failure :
    (run (.parsed ⟨"doc.pdf", "default", [], []⟩) true ["r"]
        [⟨["r", "a.txt"], .bytes [104], .error "read failed"⟩]
        (.ok ())).toc.length = 1 ∧
    (run (.parsed ⟨"doc.pdf", "default", [], []⟩) true ["r"]
        [⟨["r", "a.txt"], .bytes [104], .error "read failed"⟩]
        (.ok ())).sections.length = 0 := by
  decide

/-- C1 (amended): in every run in which no file fails reading or
highlighting inside the render loop, the table-of-contents entries and
the rendered sections are in one-to-one correspondence: equal in count,
and the i-th TOC entry carries exactly the i-th section's heading and
anchor (the TOC is the projection of the section list). When a file does
fail there, it contributes a TOC entry but no section (see the
counterexample). -/
theorem toc_matches_sections_when_renders_succeed (cfg : Config)
    (root : List String) (files : List SrcFile)
    (h : ∀ f ∈ files, ∃ hl, f.renderOutcome = Except.ok hl) :
    (run (.parsed cfg) true root files (.ok ())).toc.length
        = (run (.parsed cfg) true root files (.ok ())).sections.length ∧
    (run (.parsed cfg) true root files (.ok ())).sections.map
        (fun s => TocItem.mk s.heading s.anchor)
      = (run (.parsed cfg) true root files (.ok ())).toc := by
  have htargets : ∀ f ∈ (selectTargets cfg root files).1,
      ∃ hl, f.renderOutcome = Except.ok hl := by
    intro f hf
    rw [selectTargets_eq_filter] at hf
    exact h f (List.mem_filter.mp hf).1
  have hmap := renderLoop_allOk root (selectTargets cfg root files).1 0 htargets
  constructor
  · simp only [run, loadConfig, if_true]
    rw [← hmap, List.length_map]
  · simp only [run, loadConfig, if_true]
    exact hmap

/-- Witness for the amended C1: a run with one successfully rendered
file has a TOC of length one projecting exactly to its section list. -/
theorem toc_matches_sections_witness :
    (∀ f ∈ ([⟨["r", "a.py"], .bytes [112], .ok "HL"⟩] : List SrcFile),
        ∃ hl, f.renderOutcome = Except.ok hl) ∧
    ((run (.parsed ⟨"doc.pdf", "default", [], []⟩) true ["r"]
        [⟨["r", "a.py"], .bytes [112], .ok "HL"⟩] (.ok ())).toc.length
      = (run (.parsed ⟨"doc.pdf", "default", [], []⟩) true ["r"]
        [⟨["r", "a.py"], .bytes [112], .ok "HL"⟩] (.ok ())).sections.length ∧
    (run (.parsed ⟨"doc.pdf", "default", [], []⟩) true ["r"]
        [⟨["r", "a.py"], .bytes [112], .ok "HL"⟩] (.ok ())).sections.map
        (fun s => TocItem.mk s.heading s.anchor)
      = (run (.parsed ⟨"doc.pdf", "default", [], []⟩) true ["r"]
        [⟨["r", "a.py"], .bytes [112], .ok "HL"⟩] (.ok ())).toc) := by
  have hok : ∀ f ∈ ([⟨["r", "a.py"], .bytes [112], .ok "HL"⟩] : List SrcFile),
      ∃ hl, f.renderOutcome = Except.ok hl := by
    intro f hf
    rw [List.mem_singleton] at hf
    subst hf
    exact ⟨"HL", rfl⟩
  exact ⟨hok, toc_matches_sections_when_renders_succeed _ _ _ hok⟩

/-- C7: per-file failures are recoverable. A read failure during the
binary probe produces the read-error diagnostic naming the path and the
file is dropped by the filter (contributing no section). A failure of
the read-and-highlight step inside the render loop produces the
render-error diagnostic naming the path, and that file contributes no
rendered section: no section of the loop's output carries its anchor,
the section list being exactly the two unaffected halves concatenated.
In every case the run continues: with a succeeding export it still
produces the output document. -/
theorem per_file_errors_recoverable (cfg : Config) (root : List String)
    (f : SrcFile) (e₁ e₂ : String) (l₁ l₂ : List SrcFile) (i : Nat) :
    (f.readOutcome = .osError e₁ →
      is_binary f = (true, [Diag.readError (pathStr f.parts) e₁]) ∧
      (is_excluded cfg f.parts root = false →
        filterStep cfg root f
          = (false, [Diag.readError (pathStr f.parts) e₁]))) ∧
    (f.renderOutcome = .error e₂ →
      Diag.renderError (pathStr f.parts) e₂
          ∈ (renderLoop root i (l₁ ++ f :: l₂)).diags ∧
      (∀ s ∈ (renderLoop root i (l₁ ++ f :: l₂)).sections,
        s.anchor ≠ anchorOf (i + l₁.length)) ∧
      (renderLoop root i (l₁ ++ f :: l₂)).sections
        = (renderLoop root i l₁).sections
            ++ (renderLoop root (i + l₁.length + 1) l₂).sections) ∧
    (∀ files : List SrcFile,
      (run (.parsed cfg) true root files (.ok ())).output
        = some cfg.output_pdf_name) := by
  refine ⟨?_, ?_, ?_⟩
  · intro hro
    have hbin : is_binary f
        = (true, [Diag.readError (pathStr f.parts) e₁]) := by
      simp [is_binary, hro]
    refine ⟨hbin, fun hexc => ?_⟩
    simp [filterStep, hexc, hbin]
  · intro hre
    have hra := renderLoop_append root l₁ (f :: l₂) i
    refine ⟨?_, ?_, ?_⟩
    · rw [hra]
      simp [renderLoop, hre]
    · intro s hs
      rw [hra] at hs
      simp only [List.mem_append] at hs
      rcases hs with hs | hs
      · obtain ⟨j, hj₁, hj₂, hj₃⟩ :=
          renderLoop_sections_anchors root l₁ i s hs
        rw [hj₃]
        intro hc
        have := anchorOf_inj hc
        omega
      · rw [show (renderLoop root (i + l₁.length) (f :: l₂)).sections
              = (renderLoop root (i + l₁.length + 1) l₂).sections by
            simp [renderLoop, hre]] at hs
        obtain ⟨j, hj₁, hj₂, hj₃⟩ :=
          renderLoop_sections_anchors root l₂ (i + l₁.length + 1) s hs
        rw [hj₃]
        intro hc
        have := anchorOf_inj hc
        omega
    · rw [hra]
      simp [renderLoop, hre]
  · intro files
    simp [run, loadConfig]

/-- Witness for C7: a file whose probe hits an OS error and whose render
step raises is diagnosed twice by name, contributes no section, and the
run still writes the document. -/
theorem per_file_errors_recoverable_witness :
    (⟨["r", "b.dat"], .osError "denied", .error "boom"⟩ : SrcFile).readOutcome
        = .osError "denied" ∧
    is_binary ⟨["r", "b.dat"], .osError "denied", .error "boom"⟩
        = (true, [Diag.readError (pathStr ["r", "b.dat"]) "denied"]) ∧
    (⟨["r", "b.dat"], .osError "denied", .error "boom"⟩ : SrcFile).renderOutcome
        = .error "boom" ∧
    Diag.renderError (pathStr ["r", "b.dat"]) "boom"
        ∈ (renderLoop ["r"] 0
            [⟨["r", "b.dat"], .osError "denied", .error "boom"⟩]).diags ∧
    (renderLoop ["r"] 0
        [⟨["r", "b.dat"], .osError "denied", .error "boom"⟩]).sections = [] ∧
    (run (.parsed ⟨"o.pdf", "default", [], []⟩) true ["r"]
        [⟨["r", "b.dat"], .osError "denied", .error "boom"⟩]
        (.ok ())).output = some "o.pdf" := by
  have h := per_file_errors_recoverable ⟨"o.pdf", "default", [], []⟩ ["r"]
    ⟨["r", "b.dat"], .osError "denied", .error "boom"⟩ "denied" "boom"
    [] [] 0
  refine ⟨rfl, (h.1 rfl).1, rfl, ?_, ?_, ?_⟩
  · exact (h.2.1 rfl).1
  · have := (h.2.1 rfl).2.2
    simpa using this
  · exact h.2.2 [⟨["r", "b.dat"], .osError "denied", .error "boom"⟩]

/-- C5: a discovered file (appearing once in the traversal) that is not
excluded, whose content is valid UTF-8 text (so the probe finds text)
and whose render step succeeds, yields
in the assembled document a table-of-contents entry whose text is its
root-relative path and whose link target is the anchor `file-i` of its
loop index, and exactly one rendered section carries that anchor: the
one with heading equal to the same relative path and body its markup. -/
theorem included_file_unique_section (cfg : Config) (root : List String)
    (files : List SrcFile) (f : SrcFile) (bs : List Nat)
    (rel : List String) (hl : String)
    (hcount : files.count f = 1)
    (hexc : is_excluded cfg f.parts root = false)
    (hbytes : f.readOutcome = .bytes bs)
    (hvalid : validUtf8 bs = true)
    (hrel : relative_to f.parts root = some rel)
    (hhl : f.renderOutcome = .ok hl) :
    ∃ i,
      (run (.parsed cfg) true root files (.ok ())).toc[i]?
          = some ⟨String.intercalate "/" rel, anchorOf i⟩ ∧
      (run (.parsed cfg) true root files (.ok ())).sections.filter
          (fun s => s.anchor == anchorOf i)
        = [⟨anchorOf i, String.intercalate "/" rel, hl⟩] := by
  have hkeep : (fun g => (filterStep cfg root g).1) f = true := by
    simp [filterStep, hexc, is_binary, hbytes, readProbe_of_valid hvalid]
  have htc : (selectTargets cfg root files).1.count f = 1 := by
    rw [selectTargets_eq_filter]
    exact (@List.count_filter SrcFile _ _
      (fun g => (filterStep cfg root g).1) f files hkeep).trans hcount
  obtain ⟨l₁, l₂, hsplit, hnl₁, hnl₂⟩ := count_one_split htc
  have hT : (run (.parsed cfg) true root files (.ok ())).toc
      = (renderLoop root 0 (selectTargets cfg root files).1).toc := by
    simp [run, loadConfig]
  have hS : (run (.parsed cfg) true root files (.ok ())).sections
      = (renderLoop root 0 (selectTargets cfg root files).1).sections := by
    simp [run, loadConfig]
  have hra := renderLoop_append root l₁ (f :: l₂) 0
  have hlen : (renderLoop root 0 l₁).toc.length = l₁.length :=
    renderLoop_toc_length root l₁ 0
  refine ⟨l₁.length, ?_, ?_⟩
  · rw [hT, hsplit, hra]
    rw [List.getElem?_append_right (by simp [hlen])]
    simp only [hlen, Nat.sub_self]
    simp [renderLoop, hhl, relStr, hrel]
  · rw [hS, hsplit, hra]
    simp only [List.filter_append]
    have h1 : (renderLoop root 0 l₁).sections.filter
        (fun s => s.anchor == anchorOf l₁.length) = [] :=
      renderLoop_filter_anchor_nil root l₁ 0 l₁.length (Or.inr (by omega))
    have h2 : (renderLoop root (0 + l₁.length) (f :: l₂)).sections
        = FileSection.mk (anchorOf l₁.length) (String.intercalate "/" rel) hl
            :: (renderLoop root (l₁.length + 1) l₂).sections := by
      simp [renderLoop, hhl, relStr, hrel]
    rw [h1, h2]
    simp only [List.filter_cons]
    rw [if_pos (by simp)]
    have h3 : (renderLoop root (l₁.length + 1) l₂).sections.filter
        (fun s => s.anchor == anchorOf l₁.length) = [] :=
      renderLoop_filter_anchor_nil root l₂ (l₁.length + 1) l₁.length
        (Or.inl (by omega))
    rw [h3]
    simp

/-- Witness for C5: a single clean Python file ends up as TOC entry
`a.py → file-0` and as the unique section anchored `file-0`. -/
theorem included_file_unique_section_witness :
    ([⟨["r", "a.py"], .bytes [112], .ok "HL"⟩] : List SrcFile).count
        ⟨["r", "a.py"], .bytes [112], .ok "HL"⟩ = 1 ∧
    is_excluded ⟨"o.pdf", "default", [], []⟩ ["r", "a.py"] ["r"] = false ∧
    validUtf8 [112] = true ∧
    relative_to ["r", "a.py"] ["r"] = some ["a.py"] ∧
    ∃ i,
      (run (.parsed ⟨"o.pdf", "default", [], []⟩) true ["r"]
          [⟨["r", "a.py"], .bytes [112], .ok "HL"⟩] (.ok ())).toc[i]?
          = some ⟨String.intercalate "/" ["a.py"], anchorOf i⟩ ∧
      (run (.parsed ⟨"o.pdf", "default", [], []⟩) true ["r"]
          [⟨["r", "a.py"], .bytes [112], .ok "HL"⟩] (.ok ())).sections.filter
          (fun s => s.anchor == anchorOf i)
        = [⟨anchorOf i, String.intercalate "/" ["a.py"], "HL"⟩] := by
  refine ⟨by decide, by decide, by decide, by decide, ?_⟩
  exact included_file_unique_section ⟨"o.pdf", "default", [], []⟩ ["r"]
    [⟨["r", "a.py"], .bytes [112], .ok "HL"⟩]
    ⟨["r", "a.py"], .bytes [112], .ok "HL"⟩ [112] ["a.py"] "HL"
    (by decide) (by decide) rfl (by decide) (by decide) rfl
